import Mathlib

/-!
Verification of the CSV → SKOS restore pipeline of `restore_soilvoc_from_csv.py`.

The Python program rebuilds a SKOS taxonomy (an RDF graph, i.e. a set of
triples) from flat CSV rows.  This file gives a shallow embedding of the
pure core of that program:

* Python string primitives (`strip`, `lower`/`casefold`, `split`,
  `startswith`, lexicographic string comparison) are modelled over the
  character list of a `String`, so that everything kernel-evaluates;
  `casefold` agrees with `lower` on the ASCII data this repository handles.
* An RDF graph is a `Finset Triple`; `rdflib.Graph.add` is set insertion.
* `build_graph_from_csv` is decomposed exactly along the phases of the
  source: procedure classification, the prefLabel → URI index and resolver
  (with its warning accumulator), per-row concept triples, per-row broader
  routing, the inferred `skos:narrower` closure, and top-concept inference.
* The verification phase of `main` (predicate filtering, top-concept
  inverse closure, graph diffing) is modelled as pure functions on triple
  sets, including the aliasing behaviour of `_graph_without_predicates`
  (it returns the very same graph when the ignored-predicate set is empty,
  so in-place additions by `close_topconcept_inverses` would land in the
  restored graph itself).
-/

namespace SoilVoc

/-- Python ASCII whitespace, as stripped by `str.strip()` (the repository's
data is ASCII, so the Unicode cases of `strip` do not arise). -/
def isSpaceChar (c : Char) : Bool :=
  c = ' ' || c = '\t' || c = '\n' || c = '\r' || c = '\x0b' || c = '\x0c'

/-- Python `str.strip()`. -/
def pyStrip (s : String) : String :=
  ⟨((s.data.dropWhile isSpaceChar).reverse.dropWhile isSpaceChar).reverse⟩

/-- Python `str.lower()` (ASCII). -/
def pyLower (s : String) : String :=
  ⟨s.data.map Char.toLower⟩

/-- Python `str.casefold()`; on the ASCII data of this repository it
coincides with `lower()`. -/
def pyCasefold (s : String) : String := pyLower s

/-- Python `str.startswith(pre)`. -/
def pyStartswith (s pre : String) : Bool :=
  pre.data.isPrefixOf s.data

/-- Code-point comparison of characters, as Python compares strings. -/
def charListLe : List Char → List Char → Bool
  | [], _ => true
  | _ :: _, [] => false
  | a :: as, b :: bs =>
    if a.toNat < b.toNat then true
    else if b.toNat < a.toNat then false
    else charListLe as bs

/-- Python string `<=`: lexicographic by code point. -/
def strLe (a b : String) : Bool := charListLe a.data b.data

/-- Splitting a character list on `;`, as Python `str.split(";")` does
(empty segments are kept here and filtered by the caller). -/
def splitSemiAux : List Char → List Char → List String
  | [], acc => [⟨acc.reverse⟩]
  | c :: cs, acc =>
    if c = ';' then ⟨acc.reverse⟩ :: splitSemiAux cs []
    else splitSemiAux cs (c :: acc)

/-- `split_semicolon` of the source: strip the cell, treat empty or
(case-insensitive) `"nan"` cells as holding no values, split on `;`,
strip each part, and drop empty parts. -/
def split_semicolon (value : String) : List String :=
  let v := pyStrip value
  if v = "" then []
  else if pyLower v = "nan" then []
  else ((splitSemiAux v.data []).map pyStrip).filter (fun p => p ≠ "")

/-- One flat CSV record after `read_rows` has canonicalized the column
names; the seven required logical fields, raw cell text. -/
structure Row where
  id : String
  prefLabel : String
  altLabel : String
  definition : String
  broader : String
  exactMatch : String
  closeMatch : String
deriving DecidableEq, Repr

/-- `str(row[COL_ID]).strip()`, the concept URI of a row. -/
def rowUri (r : Row) : String := pyStrip r.id

/-- The warning accumulator of `build_graph_from_csv`, its two keys
(`unresolved_broader_labels`, `ambiguous_broader_labels`) modelled as the
lists of accumulated lines. -/
structure Warnings where
  unresolved : List String
  ambiguous : List String
deriving DecidableEq, Repr

/-- An RDF node: a URI reference or a literal with an optional language
tag. -/
inductive Node where
  | uri (u : String)
  | lit (s : String) (lang : Option String)
deriving DecidableEq, Repr

/-- The predicates the program emits or filters; each stands for one
fixed URI constant of the source (`RDF.type`, the SKOS terms, the two
`she:` procedure predicates, and `semscience:equivalentTo`). -/
inductive Pred where
  | rdfType
  | inScheme
  | prefLabel
  | altLabel
  | definition
  | exactMatch
  | closeMatch
  | broader
  | narrower
  | isProcedureOf
  | hasProcedure
  | hasTopConcept
  | topConceptOf
  | related
  | equivalentTo
deriving DecidableEq, Repr

/-- One RDF triple. -/
structure Triple where
  s : Node
  p : Pred
  o : Node
deriving DecidableEq, Repr

def skosConcept : String := "http://www.w3.org/2004/02/skos/core#Concept"

def skosConceptScheme : String := "http://www.w3.org/2004/02/skos/core#ConceptScheme"

/-- `PROCEDURE_EXACTMATCH_PREFIXES` of the source. -/
def procedureExactmatchNamespaces : List String :=
  ["http://w3id.org/glosis/model/procedure/",
   "http://w3id.org/glosis/model/procedure"]

/-- Whether a row's own `exactMatch` cell carries a GLOSIS procedure URI:
`any(u.startswith(PROCEDURE_EXACTMATCH_PREFIXES) for u in exacts)`. -/
def isProcedureRow (r : Row) : Bool :=
  (split_semicolon r.exactMatch).any
    (fun u => procedureExactmatchNamespaces.any (fun pre => pyStartswith u pre))

/-- `procedure_concept_uris`: the set of concept URIs classified as
procedures, computed over the whole row set (and before any broader
reference is resolved — this definition consults no resolver). -/
def procedureUris (rows : List Row) : Finset String :=
  (rows.filterMap (fun r =>
    if rowUri r = "" then none
    else if isProcedureRow r then some (rowUri r)
    else none)).toFinset

/-- The list `pref_to_uris[label.casefold()]`: URIs of the rows (in input
order) whose non-empty stripped `prefLabel` case-folds to the case-folded
label.  Rows with an empty URI or empty prefLabel are not indexed. -/
def matchingUris (rows : List Row) (label : String) : List String :=
  rows.filterMap (fun r =>
    if rowUri r = "" then none
    else if pyStrip r.prefLabel = "" then none
    else if pyCasefold (pyStrip r.prefLabel) = pyCasefold label then some (rowUri r)
    else none)

/-- The line appended to the unresolved-labels report per occurrence. -/
def unresolvedLine (label : String) : String := "- " ++ label

/-- The line appended to the ambiguous-labels report per occurrence. -/
def ambiguousLine (label : String) (n : Nat) : String :=
  "- " ++ label ++ " -> " ++ toString n ++ " URIs; using lexicographically smallest"

/-- `resolve_pref_to_uri` of the source, with the warning dictionary
threaded explicitly.  Zero candidate URIs: unresolved, one line appended.
Exactly one: that URI.  More than one: `sorted(uris)[0]`, one ambiguity
line appended. -/
def resolve_pref_to_uri (rows : List Row) (label : String) (w : Warnings) :
    Option String × Warnings :=
  match matchingUris rows label with
  | [] => (none, { w with unresolved := w.unresolved ++ [unresolvedLine label] })
  | [u] => (some u, w)
  | u :: v :: rest =>
    (((u :: v :: rest).mergeSort strLe).head?,
     { w with ambiguous := w.ambiguous ++ [ambiguousLine label (u :: v :: rest).length] })

/-- The URI a broader label resolves to; the resolver's value component
does not depend on the warning state. -/
def resolveLabel (rows : List Row) (label : String) : Option String :=
  (resolve_pref_to_uri rows label ⟨[], []⟩).1

/-- The warning state after the broader-resolution loop of
`build_graph_from_csv` has run over all rows in input order. -/
def buildWarnings (rows : List Row) : Warnings :=
  rows.foldl (fun w r =>
    if rowUri r = "" then w
    else (split_semicolon r.broader).foldl
      (fun w2 lab => (resolve_pref_to_uri rows lab w2).2) w) ⟨[], []⟩

/-- Union of a list of triple sets (repeated `Graph.add`). -/
def listUnion {α : Type} [DecidableEq α] (l : List (Finset α)) : Finset α :=
  l.foldr (fun s acc => s ∪ acc) ∅

/-- The triples `build_graph_from_csv` adds for one resolved broader label
of one row.  `if broader_uri:` in the source also rejects the empty
string, hence the explicit guard.  A procedure child pointing at a
procedure parent gets `skos:broader`; a procedure child pointing at a
non-procedure parent gets the `she:isProcedureOf` / `she:hasProcedure`
pair; a non-procedure child always gets `skos:broader`. -/
def labelTriples (rows : List Row) (procs : Finset String) (uri lab : String) :
    Finset Triple :=
  match resolveLabel rows lab with
  | none => ∅
  | some b =>
    if b = "" then ∅
    else if uri ∈ procs then
      if b ∈ procs then {⟨.uri uri, .broader, .uri b⟩}
      else {⟨.uri uri, .isProcedureOf, .uri b⟩, ⟨.uri b, .hasProcedure, .uri uri⟩}
    else {⟨.uri uri, .broader, .uri b⟩}

/-- The identity, label, definition and match-link triples one row
contributes (first per-row loop of `build_graph_from_csv`). -/
def conceptTriples (procs : Finset String) (scheme : String) (r : Row) :
    Finset Triple :=
  if rowUri r = "" then ∅ else
    ({⟨.uri (rowUri r), .rdfType, .uri skosConcept⟩,
      ⟨.uri (rowUri r), .inScheme, .uri scheme⟩} : Finset Triple)
    ∪ (if pyStrip r.prefLabel = "" then ∅
       else {⟨.uri (rowUri r), .prefLabel, .lit (pyStrip r.prefLabel) (some "en")⟩})
    ∪ ((split_semicolon r.altLabel).map
        (fun a => (⟨.uri (rowUri r), .altLabel, .lit a (some "en")⟩ : Triple))).toFinset
    ∪ (if pyStrip r.definition = "" then ∅
       else if rowUri r ∈ procs then
         {⟨.uri (rowUri r), .definition, .lit (pyStrip r.definition) none⟩}
       else
         {⟨.uri (rowUri r), .definition, .lit (pyStrip r.definition) (some "en")⟩})
    ∪ ((split_semicolon r.exactMatch).map
        (fun u => (⟨.uri (rowUri r), .exactMatch, .uri u⟩ : Triple))).toFinset
    ∪ ((split_semicolon r.closeMatch).map
        (fun u => (⟨.uri (rowUri r), .closeMatch, .uri u⟩ : Triple))).toFinset

/-- The broader-routing triples one row contributes (second per-row loop
of `build_graph_from_csv`). -/
def broaderTriplesRow (rows : List Row) (procs : Finset String) (r : Row) :
    Finset Triple :=
  if rowUri r = "" then ∅
  else listUnion ((split_semicolon r.broader).map (labelTriples rows procs (rowUri r)))

/-- The scheme-typing triple added first. -/
def baseTriples (scheme : String) : Finset Triple :=
  {⟨.uri scheme, .rdfType, .uri skosConceptScheme⟩}

def conceptPart (rows : List Row) (scheme : String) : Finset Triple :=
  listUnion (rows.map (conceptTriples (procedureUris rows) scheme))

def broaderPart (rows : List Row) : Finset Triple :=
  listUnion (rows.map (broaderTriplesRow rows (procedureUris rows)))

/-- The graph just before the `skos:narrower` closure. -/
def preGraph (rows : List Row) (scheme : String) : Finset Triple :=
  baseTriples scheme ∪ conceptPart rows scheme ∪ broaderPart rows

/-- `for child, _, parent in g.triples((None, SKOS.broader, None)):
g.add((parent, SKOS.narrower, child))`. -/
def addNarrower (g : Finset Triple) : Finset Triple :=
  g ∪ (g.filter (fun t => t.p = Pred.broader)).image
      (fun t => (⟨t.o, Pred.narrower, t.s⟩ : Triple))

/-- `top_concept_uris_from_csv`: non-procedure concept URIs whose raw
stripped `broader` cell is empty. -/
def topConceptUris (rows : List Row) (procs : Finset String) : Finset String :=
  (rows.filterMap (fun r =>
    if rowUri r = "" then none
    else if rowUri r ∈ procs then none
    else if pyStrip r.broader = "" then some (rowUri r)
    else none)).toFinset

/-- The symmetric top-concept membership pair for each top concept. -/
def topTriples (scheme : String) (tops : Finset String) : Finset Triple :=
  tops.image (fun u => (⟨.uri scheme, Pred.hasTopConcept, .uri u⟩ : Triple))
  ∪ tops.image (fun u => (⟨.uri u, Pred.topConceptOf, .uri scheme⟩ : Triple))

/-- The triple set `build_graph_from_csv` returns. -/
def buildGraph (rows : List Row) (scheme : String) : Finset Triple :=
  addNarrower (preGraph rows scheme)
  ∪ topTriples scheme (topConceptUris rows (procedureUris rows))

/-- `build_graph_from_csv` (minus file reading): the built graph together
with the accumulated warnings. -/
def build_graph_from_csv (rows : List Row) (scheme : String) :
    Finset Triple × Warnings :=
  (buildGraph rows scheme, buildWarnings rows)

/-- `_graph_without_predicates`: with an empty predicate set the SAME
graph is returned (in Python, the same object); otherwise a new graph
without the given predicates. -/
def graphWithoutPredicates (g : Finset Triple) (preds : Finset Pred) :
    Finset Triple :=
  if preds = ∅ then g else g.filter (fun t => t.p ∉ preds)

/-- `close_topconcept_inverses`: first every `hasTopConcept` object of the
scheme gets its `topConceptOf` inverse, then (over the graph as mutated by
the first loop) every `topConceptOf` subject gets its `hasTopConcept`
inverse. -/
def closeTopconceptInverses (g : Finset Triple) (scheme : String) : Finset Triple :=
  let g1 := g ∪ (g.filter (fun t => t.s = Node.uri scheme ∧ t.p = Pred.hasTopConcept)).image
      (fun t => (⟨t.o, Pred.topConceptOf, .uri scheme⟩ : Triple))
  g1 ∪ (g1.filter (fun t => t.p = Pred.topConceptOf ∧ t.o = Node.uri scheme)).image
      (fun t => (⟨.uri scheme, Pred.hasTopConcept, t.s⟩ : Triple))

/-- `diff_graphs`: the two set differences (the source additionally sorts
and truncates them, purely for display). -/
def diff_graphs (gExpected gActual : Finset Triple) :
    Finset Triple × Finset Triple :=
  (gExpected \ gActual, gActual \ gExpected)

/-- The effect of the comparison block of `main` on the in-memory
restored graph, together with the computed diff.  Mirrors the source:
the ignored-predicate set is assembled from the flags; both graphs are
passed through `_graph_without_predicates` (which ALIASES its input when
the ignored set is empty); with `--include-topconceptof` the inverse
closure is applied in place to the comparison graphs — so additions land
in the restored graph itself exactly when the ignored set is empty; the
diff reads but never writes.  The first component is the restored
graph's triple set after the whole block. -/
def verifyPhase (restored existing : Finset Triple) (scheme : String)
    (includeRelated includeTopconceptof includeEquivalentto : Bool) :
    Finset Triple × (Finset Triple × Finset Triple) :=
  let ignored : Finset Pred :=
    (if includeRelated then ∅ else {Pred.related})
    ∪ (if includeEquivalentto then ∅ else {Pred.equivalentTo})
  let existingCmp := graphWithoutPredicates existing ignored
  let restoredCmp := graphWithoutPredicates restored ignored
  let existingCmp2 :=
    if includeTopconceptof then closeTopconceptInverses existingCmp scheme else existingCmp
  let restoredCmp2 :=
    if includeTopconceptof then closeTopconceptInverses restoredCmp scheme else restoredCmp
  let d := diff_graphs existingCmp2 restoredCmp2
  let restoredFinal :=
    if ignored = ∅ ∧ includeTopconceptof then closeTopconceptInverses restored scheme
    else restored
  (restoredFinal, d)

/-! ### Concrete rows used to exercise the definitions -/

/-- An ordinary concept row with no broader reference. -/
def rowSoil : Row :=
  ⟨"urn:ex:soil", "Soil", "", "Soil definition", "", "", ""⟩

/-- An ordinary concept row whose broader cell names `Soil`. -/
def rowClay : Row :=
  ⟨"urn:ex:clay", "Clay", "", "", "Soil", "", ""⟩

/-- A procedure row (GLOSIS procedure exactMatch) whose broader cell names
`Soil`. -/
def rowProc : Row :=
  ⟨"urn:ex:proc", "Measure", "", "Proc definition", "Soil",
   "http://w3id.org/glosis/model/procedure/X", ""⟩

/-- A second row with prefLabel `Soil`, for the ambiguity tie-break. -/
def rowSoilB : Row :=
  ⟨"urn:ex:b", "Soil", "", "", "", "", ""⟩

/-- A row whose broader cell is the literal text `nan`. -/
def rowNan : Row :=
  ⟨"urn:ex:nan", "Nanny", "", "", "nan", "", ""⟩

/-! ### Helper lemmas: the lexicographic string order -/

theorem charListLe_refl : ∀ a : List Char, charListLe a a = true := by
  intro a
  induction a with
  | nil => rfl
  | cons x xs ih => simp [charListLe, ih]

theorem strLe_refl (a : String) : strLe a a = true :=
  charListLe_refl a.data

theorem charListLe_trans :
    ∀ a b c : List Char, charListLe a b = true → charListLe b c = true →
      charListLe a c = true := by
  intro a
  induction a with
  | nil => intro b c _ _; rfl
  | cons x xs ih =>
    intro b c hab hbc
    cases b with
    | nil => simp [charListLe] at hab
    | cons y ys =>
      cases c with
      | nil => simp [charListLe] at hbc
      | cons z zs =>
        by_cases hxy : x.toNat < y.toNat
        · by_cases hyz : y.toNat < z.toNat
          · simp [charListLe, Nat.lt_trans hxy hyz]
          · by_cases hzy : z.toNat < y.toNat
            · simp [charListLe, hyz, hzy] at hbc
            · have hxz : x.toNat < z.toNat := by omega
              simp [charListLe, hxz]
        · by_cases hyx : y.toNat < x.toNat
          · simp [charListLe, hxy, hyx] at hab
          · simp only [charListLe, if_neg hxy, if_neg hyx] at hab
            by_cases hyz : y.toNat < z.toNat
            · have hxz : x.toNat < z.toNat := by omega
              simp [charListLe, hxz]
            · by_cases hzy : z.toNat < y.toNat
              · simp [charListLe, hyz, hzy] at hbc
              · simp only [charListLe, if_neg hyz, if_neg hzy] at hbc
                have hxz : ¬ x.toNat < z.toNat := by omega
                have hzx : ¬ z.toNat < x.toNat := by omega
                simp only [charListLe, if_neg hxz, if_neg hzx]
                exact ih ys zs hab hbc

theorem strLe_trans (a b c : String) (hab : strLe a b = true) (hbc : strLe b c = true) :
    strLe a c = true :=
  charListLe_trans a.data b.data c.data hab hbc

theorem charListLe_total : ∀ a b : List Char, (charListLe a b || charListLe b a) = true := by
  intro a
  induction a with
  | nil => intro b; rfl
  | cons x xs ih =>
    intro b
    cases b with
    | nil => rfl
    | cons y ys =>
      by_cases hxy : x.toNat < y.toNat
      · simp [charListLe, hxy]
      · by_cases hyx : y.toNat < x.toNat
        · simp [charListLe, hxy, hyx]
        · simp only [charListLe, if_neg hxy, if_neg hyx]
          exact ih ys

theorem strLe_total (a b : String) : (strLe a b || strLe b a) = true :=
  charListLe_total a.data b.data

theorem charToNat_inj {a b : Char} (h : a.toNat = b.toNat) : a = b :=
  Char.eq_of_val_eq (UInt32.ext h)

theorem charListLe_antisymm :
    ∀ a b : List Char, charListLe a b = true → charListLe b a = true → a = b := by
  intro a
  induction a with
  | nil =>
    intro b _ hba
    cases b with
    | nil => rfl
    | cons y ys => simp [charListLe] at hba
  | cons x xs ih =>
    intro b hab hba
    cases b with
    | nil => simp [charListLe] at hab
    | cons y ys =>
      by_cases hxy : x.toNat < y.toNat
      · simp [charListLe, hxy, Nat.lt_asymm hxy] at hba
      · by_cases hyx : y.toNat < x.toNat
        · simp [charListLe, hxy, hyx] at hab
        · simp only [charListLe, if_neg hxy, if_neg hyx] at hab hba
          have hx : x = y := charToNat_inj (by omega)
          rw [hx, ih ys hab hba]

theorem stringDataEq {a b : String} (h : a.data = b.data) : a = b := by
  cases a; cases b; exact congrArg String.mk h

theorem strLe_antisymm {a b : String} (hab : strLe a b = true) (hba : strLe b a = true) :
    a = b :=
  stringDataEq (charListLe_antisymm a.data b.data hab hba)

/-- The head of `sorted(us)` (Python `sorted(uris)[0]`) is the
lexicographically smallest element. -/
theorem mergeSort_head_min (us : List String) (h : us ≠ []) :
    ∃ m, (us.mergeSort strLe).head? = some m ∧ m ∈ us ∧
      ∀ x ∈ us, strLe m x = true := by
  have hperm := List.mergeSort_perm us strLe
  have hsorted := @List.sorted_mergeSort String strLe
    (fun a b c => strLe_trans a b c) (fun a b => strLe_total a b) us
  cases hms : us.mergeSort strLe with
  | nil =>
    rw [hms] at hperm
    exact absurd (hperm.symm.eq_nil) h
  | cons m tail =>
    rw [hms] at hperm hsorted
    refine ⟨m, rfl, hperm.mem_iff.1 (by simp), ?_⟩
    intro x hx
    have hx' : x ∈ m :: tail := hperm.mem_iff.2 hx
    rcases List.mem_cons.1 hx' with rfl | hx''
    · exact strLe_refl _
    · exact (List.pairwise_cons.1 hsorted).1 x hx''

/-! ### Helper lemmas: unions of triple sets -/

theorem mem_listUnion {α : Type} [DecidableEq α] {l : List (Finset α)} {t : α} :
    t ∈ listUnion l ↔ ∃ s ∈ l, t ∈ s := by
  induction l with
  | nil => simp [listUnion]
  | cons x xs ih => simp [listUnion, List.foldr_cons, Finset.mem_union, ih.symm]

theorem listUnion_perm {α : Type} [DecidableEq α] {l l' : List (Finset α)}
    (h : l.Perm l') : listUnion l = listUnion l' := by
  induction h with
  | nil => rfl
  | cons x _ ih => simp only [listUnion, List.foldr_cons] at *; rw [ih]
  | swap x y l =>
    simp only [listUnion, List.foldr_cons, ← Finset.union_assoc]
    rw [Finset.union_comm y x]
  | trans _ _ ih1 ih2 => exact ih1.trans ih2

theorem toFinset_eq_of_perm {α : Type} [DecidableEq α] {l l' : List α}
    (h : l.Perm l') : l.toFinset = l'.toFinset := by
  ext a
  simp [List.mem_toFinset, h.mem_iff]

/-! ### Helper lemmas: the label resolver -/

theorem mem_matchingUris {rows : List Row} {lab m : String} :
    m ∈ matchingUris rows lab ↔
      ∃ r ∈ rows, rowUri r ≠ "" ∧ pyStrip r.prefLabel ≠ "" ∧
        pyCasefold (pyStrip r.prefLabel) = pyCasefold lab ∧ rowUri r = m := by
  have haux : ∀ r : Row,
      ((if rowUri r = "" then none
        else if pyStrip r.prefLabel = "" then none
        else if pyCasefold (pyStrip r.prefLabel) = pyCasefold lab then some (rowUri r)
        else none) = some m) ↔
      (rowUri r ≠ "" ∧ pyStrip r.prefLabel ≠ "" ∧
        pyCasefold (pyStrip r.prefLabel) = pyCasefold lab ∧ rowUri r = m) := by
    intro r
    split_ifs <;> simp [*]
  unfold matchingUris
  rw [List.mem_filterMap]
  simp only [haux]

theorem matchingUris_ne_empty {rows : List Row} {lab m : String}
    (h : m ∈ matchingUris rows lab) : m ≠ "" := by
  obtain ⟨r, _, hne, _, _, hm⟩ := mem_matchingUris.1 h
  exact hm ▸ hne

theorem resolve_unresolved {rows : List Row} {lab : String} (w : Warnings)
    (h : matchingUris rows lab = []) :
    resolve_pref_to_uri rows lab w =
      (none, { w with unresolved := w.unresolved ++ [unresolvedLine lab] }) := by
  unfold resolve_pref_to_uri
  rw [h]

theorem resolveLabel_eq_none_iff {rows : List Row} {lab : String} :
    resolveLabel rows lab = none ↔ matchingUris rows lab = [] := by
  unfold resolveLabel resolve_pref_to_uri
  cases h : matchingUris rows lab with
  | nil => simp
  | cons u rest =>
    cases rest with
    | nil => simp
    | cons v rest2 =>
      obtain ⟨m, hhead, _, _⟩ := mergeSort_head_min (u :: v :: rest2) (by simp)
      simp [hhead]

theorem resolveLabel_eq_some_iff {rows : List Row} {lab m : String} :
    resolveLabel rows lab = some m ↔
      m ∈ matchingUris rows lab ∧ ∀ x ∈ matchingUris rows lab, strLe m x = true := by
  unfold resolveLabel resolve_pref_to_uri
  cases h : matchingUris rows lab with
  | nil => simp
  | cons u rest =>
    cases rest with
    | nil =>
      simp only [List.head?, List.mem_singleton]
      constructor
      · rintro hm
        have : u = m := by simpa using hm
        subst this
        exact ⟨rfl, by rintro x rfl; exact strLe_refl _⟩
      · rintro ⟨rfl, _⟩
        rfl
    | cons v rest2 =>
      obtain ⟨m', hhead, hmem, hmin⟩ := mergeSort_head_min (u :: v :: rest2) (by simp)
      simp only [hhead, Prod.fst, Option.some_inj]
      constructor
      · rintro rfl
        exact ⟨hmem, hmin⟩
      · rintro ⟨hm2, hmin2⟩
        exact strLe_antisymm (hmin m hm2) (hmin2 m' hmem)

theorem resolveLabel_some_mem {rows : List Row} {lab m : String}
    (h : resolveLabel rows lab = some m) : m ∈ matchingUris rows lab :=
  (resolveLabel_eq_some_iff.1 h).1

theorem resolveLabel_some_ne_empty {rows : List Row} {lab m : String}
    (h : resolveLabel rows lab = some m) : m ≠ "" :=
  matchingUris_ne_empty (resolveLabel_some_mem h)

/-! ### Helper lemmas: the row-set indices -/

theorem mem_procedureUris {rows : List Row} {u : String} :
    u ∈ procedureUris rows ↔
      ∃ r ∈ rows, rowUri r ≠ "" ∧ isProcedureRow r = true ∧ rowUri r = u := by
  have haux : ∀ r : Row,
      ((if rowUri r = "" then none
        else if isProcedureRow r then some (rowUri r)
        else none) = some u) ↔
      (rowUri r ≠ "" ∧ isProcedureRow r = true ∧ rowUri r = u) := by
    intro r
    split_ifs <;> simp [*]
  unfold procedureUris
  rw [List.mem_toFinset, List.mem_filterMap]
  simp only [haux]

theorem mem_topConceptUris {rows : List Row} {procs : Finset String} {u : String} :
    u ∈ topConceptUris rows procs ↔
      ∃ r ∈ rows, rowUri r ≠ "" ∧ rowUri r ∉ procs ∧ pyStrip r.broader = "" ∧
        rowUri r = u := by
  have haux : ∀ r : Row,
      ((if rowUri r = "" then none
        else if rowUri r ∈ procs then none
        else if pyStrip r.broader = "" then some (rowUri r)
        else none) = some u) ↔
      (rowUri r ≠ "" ∧ rowUri r ∉ procs ∧ pyStrip r.broader = "" ∧ rowUri r = u) := by
    intro r
    split_ifs <;> simp [*]
  unfold topConceptUris
  rw [List.mem_toFinset, List.mem_filterMap]
  simp only [haux]

/-! ### Helper lemmas: membership in the graph parts -/

theorem mem_broaderTriplesRow {rows : List Row} {procs : Finset String} {r : Row}
    {t : Triple} :
    t ∈ broaderTriplesRow rows procs r ↔
      rowUri r ≠ "" ∧ ∃ lab ∈ split_semicolon r.broader,
        t ∈ labelTriples rows procs (rowUri r) lab := by
  unfold broaderTriplesRow
  split_ifs with h
  · simp [h]
  · simp only [mem_listUnion, List.mem_map, h, ne_eq, not_false_iff, true_and]
    constructor
    · rintro ⟨s, ⟨lab, hlab, rfl⟩, ht⟩
      exact ⟨lab, hlab, ht⟩
    · rintro ⟨lab, hlab, ht⟩
      exact ⟨_, ⟨lab, hlab, rfl⟩, ht⟩

theorem mem_conceptPart {rows : List Row} {scheme : String} {t : Triple} :
    t ∈ conceptPart rows scheme ↔
      ∃ r ∈ rows, t ∈ conceptTriples (procedureUris rows) scheme r := by
  unfold conceptPart
  simp only [mem_listUnion, List.mem_map]
  constructor
  · rintro ⟨s, ⟨r, hr, rfl⟩, ht⟩
    exact ⟨r, hr, ht⟩
  · rintro ⟨r, hr, ht⟩
    exact ⟨_, ⟨r, hr, rfl⟩, ht⟩

theorem mem_broaderPart {rows : List Row} {t : Triple} :
    t ∈ broaderPart rows ↔
      ∃ r ∈ rows, t ∈ broaderTriplesRow rows (procedureUris rows) r := by
  unfold broaderPart
  simp only [mem_listUnion, List.mem_map]
  constructor
  · rintro ⟨s, ⟨r, hr, rfl⟩, ht⟩
    exact ⟨r, hr, ht⟩
  · rintro ⟨r, hr, ht⟩
    exact ⟨_, ⟨r, hr, rfl⟩, ht⟩

theorem mem_labelTriples_iff {rows : List Row} {procs : Finset String}
    {uri lab : String} {t : Triple} :
    t ∈ labelTriples rows procs uri lab ↔
      ∃ b, resolveLabel rows lab = some b ∧ b ≠ "" ∧
        ((uri ∈ procs ∧ b ∈ procs ∧ t = ⟨.uri uri, .broader, .uri b⟩)
         ∨ (uri ∈ procs ∧ b ∉ procs ∧
            (t = ⟨.uri uri, .isProcedureOf, .uri b⟩ ∨ t = ⟨.uri b, .hasProcedure, .uri uri⟩))
         ∨ (uri ∉ procs ∧ t = ⟨.uri uri, .broader, .uri b⟩)) := by
  unfold labelTriples
  cases hres : resolveLabel rows lab with
  | none => simp
  | some b =>
    simp only [Option.some_inj]
    split_ifs with h1 h2 h3 <;>
      simp_all [Finset.mem_insert, Finset.mem_singleton]

theorem pred_of_mem_labelTriples {rows : List Row} {procs : Finset String}
    {uri lab : String} {t : Triple} (h : t ∈ labelTriples rows procs uri lab) :
    t.p = Pred.broader ∨ t.p = Pred.isProcedureOf ∨ t.p = Pred.hasProcedure := by
  obtain ⟨b, _, _, hcase⟩ := mem_labelTriples_iff.1 h
  rcases hcase with ⟨_, _, rfl⟩ | ⟨_, _, rfl | rfl⟩ | ⟨_, rfl⟩ <;> simp

theorem mem_conceptTriples_iff {procs : Finset String} {scheme : String}
    {r : Row} {t : Triple} :
    t ∈ conceptTriples procs scheme r ↔
      rowUri r ≠ "" ∧
      (t = ⟨.uri (rowUri r), .rdfType, .uri skosConcept⟩
       ∨ t = ⟨.uri (rowUri r), .inScheme, .uri scheme⟩
       ∨ (pyStrip r.prefLabel ≠ "" ∧
          t = ⟨.uri (rowUri r), .prefLabel, .lit (pyStrip r.prefLabel) (some "en")⟩)
       ∨ (∃ a ∈ split_semicolon r.altLabel,
          t = ⟨.uri (rowUri r), .altLabel, .lit a (some "en")⟩)
       ∨ (pyStrip r.definition ≠ "" ∧
          t = ⟨.uri (rowUri r), .definition, .lit (pyStrip r.definition)
                (if rowUri r ∈ procs then none else some "en")⟩)
       ∨ (∃ u ∈ split_semicolon r.exactMatch,
          t = ⟨.uri (rowUri r), .exactMatch, .uri u⟩)
       ∨ (∃ u ∈ split_semicolon r.closeMatch,
          t = ⟨.uri (rowUri r), .closeMatch, .uri u⟩)) := by
  unfold conceptTriples
  split_ifs with h1 h2 h3 h4 <;>
    simp_all [Finset.mem_union, Finset.mem_insert, Finset.mem_singleton,
      List.mem_toFinset, List.mem_map, eq_comm]

theorem pred_of_mem_conceptTriples {procs : Finset String} {scheme : String}
    {r : Row} {t : Triple} (h : t ∈ conceptTriples procs scheme r) :
    t.p = Pred.rdfType ∨ t.p = Pred.inScheme ∨ t.p = Pred.prefLabel
      ∨ t.p = Pred.altLabel ∨ t.p = Pred.definition ∨ t.p = Pred.exactMatch
      ∨ t.p = Pred.closeMatch := by
  obtain ⟨-, hcase⟩ := mem_conceptTriples_iff.1 h
  rcases hcase with rfl | rfl | ⟨-, rfl⟩ | ⟨a, -, rfl⟩ | ⟨-, rfl⟩ | ⟨u, -, rfl⟩ | ⟨u, -, rfl⟩ <;>
    simp

theorem mem_topTriples_iff {scheme : String} {tops : Finset String} {t : Triple} :
    t ∈ topTriples scheme tops ↔
      (∃ u ∈ tops, t = ⟨.uri scheme, .hasTopConcept, .uri u⟩)
      ∨ (∃ u ∈ tops, t = ⟨.uri u, .topConceptOf, .uri scheme⟩) := by
  unfold topTriples
  simp only [Finset.mem_union, Finset.mem_image]
  constructor
  · rintro (⟨u, hu, rfl⟩ | ⟨u, hu, rfl⟩)
    · exact Or.inl ⟨u, hu, rfl⟩
    · exact Or.inr ⟨u, hu, rfl⟩
  · rintro (⟨u, hu, rfl⟩ | ⟨u, hu, rfl⟩)
    · exact Or.inl ⟨u, hu, rfl⟩
    · exact Or.inr ⟨u, hu, rfl⟩

theorem mem_buildGraph_iff {rows : List Row} {scheme : String} {t : Triple} :
    t ∈ buildGraph rows scheme ↔
      t ∈ preGraph rows scheme
      ∨ (∃ t' ∈ preGraph rows scheme, t'.p = Pred.broader
          ∧ t = ⟨t'.o, Pred.narrower, t'.s⟩)
      ∨ t ∈ topTriples scheme (topConceptUris rows (procedureUris rows)) := by
  unfold buildGraph addNarrower
  simp only [Finset.mem_union, Finset.mem_image, Finset.mem_filter, or_assoc]
  constructor
  · rintro (h | ⟨t', ⟨ht', hp⟩, rfl⟩ | h)
    · exact Or.inl h
    · exact Or.inr (Or.inl ⟨t', ht', hp, rfl⟩)
    · exact Or.inr (Or.inr h)
  · rintro (h | ⟨t', ht', hp, rfl⟩ | h)
    · exact Or.inl h
    · exact Or.inr (Or.inl ⟨t', ⟨ht', hp⟩, rfl⟩)
    · exact Or.inr (Or.inr h)

theorem preGraph_subset_buildGraph {rows : List Row} {scheme : String} :
    preGraph rows scheme ⊆ buildGraph rows scheme := by
  intro t ht
  exact mem_buildGraph_iff.2 (Or.inl ht)

theorem topTriples_subset_buildGraph {rows : List Row} {scheme : String} :
    topTriples scheme (topConceptUris rows (procedureUris rows))
      ⊆ buildGraph rows scheme := by
  intro t ht
  exact mem_buildGraph_iff.2 (Or.inr (Or.inr ht))

theorem conceptTriples_subset_buildGraph {rows : List Row} {scheme : String}
    {r : Row} (hr : r ∈ rows) :
    conceptTriples (procedureUris rows) scheme r ⊆ buildGraph rows scheme := by
  intro t ht
  exact preGraph_subset_buildGraph
    (Finset.mem_union_left _ (Finset.mem_union_right _ (mem_conceptPart.2 ⟨r, hr, ht⟩)))

theorem broaderTriplesRow_subset_buildGraph {rows : List Row} {scheme : String}
    {r : Row} (hr : r ∈ rows) :
    broaderTriplesRow rows (procedureUris rows) r ⊆ buildGraph rows scheme := by
  intro t ht
  exact preGraph_subset_buildGraph
    (Finset.mem_union_right _ (mem_broaderPart.2 ⟨r, hr, ht⟩))

theorem labelTriples_subset_buildGraph {rows : List Row} {scheme : String}
    {r : Row} {lab : String} (hr : r ∈ rows) (hu : rowUri r ≠ "")
    (hlab : lab ∈ split_semicolon r.broader) :
    labelTriples rows (procedureUris rows) (rowUri r) lab ⊆ buildGraph rows scheme := by
  intro t ht
  exact broaderTriplesRow_subset_buildGraph hr
    (mem_broaderTriplesRow.2 ⟨hu, lab, hlab, ht⟩)

/-! ### Helper lemmas: inversion by predicate over the built graph -/

theorem mem_baseTriples {scheme : String} {t : Triple} :
    t ∈ baseTriples scheme ↔ t = ⟨.uri scheme, .rdfType, .uri skosConceptScheme⟩ := by
  simp [baseTriples]

theorem mem_preGraph_iff {rows : List Row} {scheme : String} {t : Triple} :
    t ∈ preGraph rows scheme ↔
      t ∈ baseTriples scheme ∨ t ∈ conceptPart rows scheme ∨ t ∈ broaderPart rows := by
  simp [preGraph, Finset.mem_union, or_assoc]

theorem pred_of_mem_preGraph {rows : List Row} {scheme : String} {t : Triple}
    (h : t ∈ preGraph rows scheme) :
    t.p = Pred.rdfType ∨ t.p = Pred.inScheme ∨ t.p = Pred.prefLabel
      ∨ t.p = Pred.altLabel ∨ t.p = Pred.definition ∨ t.p = Pred.exactMatch
      ∨ t.p = Pred.closeMatch ∨ t.p = Pred.broader ∨ t.p = Pred.isProcedureOf
      ∨ t.p = Pred.hasProcedure := by
  rcases mem_preGraph_iff.1 h with hb | hc | hb2
  · rw [mem_baseTriples] at hb
    subst hb
    simp
  · obtain ⟨r, -, ht⟩ := mem_conceptPart.1 hc
    rcases pred_of_mem_conceptTriples ht with h1 | h1 | h1 | h1 | h1 | h1 | h1 <;> tauto
  · obtain ⟨r, -, ht⟩ := mem_broaderPart.1 hb2
    obtain ⟨-, lab, -, hmem⟩ := mem_broaderTriplesRow.1 ht
    rcases pred_of_mem_labelTriples hmem with h1 | h1 | h1 <;> tauto

theorem broader_mem_buildGraph_inv {rows : List Row} {scheme : String} {t : Triple}
    (h : t ∈ buildGraph rows scheme) (hp : t.p = Pred.broader) :
    ∃ r ∈ rows, rowUri r ≠ "" ∧ ∃ lab ∈ split_semicolon r.broader,
      t ∈ labelTriples rows (procedureUris rows) (rowUri r) lab := by
  rcases mem_buildGraph_iff.1 h with hpre | ⟨t', -, -, rfl⟩ | htop
  · rcases mem_preGraph_iff.1 hpre with hb | hc | hb2
    · rw [mem_baseTriples] at hb
      subst hb
      simp at hp
    · obtain ⟨r, -, ht⟩ := mem_conceptPart.1 hc
      rcases pred_of_mem_conceptTriples ht with h1 | h1 | h1 | h1 | h1 | h1 | h1 <;>
        rw [hp] at h1 <;> simp at h1
    · obtain ⟨r, hr, ht⟩ := mem_broaderPart.1 hb2
      obtain ⟨hu, lab, hlab, hmem⟩ := mem_broaderTriplesRow.1 ht
      exact ⟨r, hr, hu, lab, hlab, hmem⟩
  · simp at hp
  · rcases mem_topTriples_iff.1 htop with ⟨u, -, rfl⟩ | ⟨u, -, rfl⟩ <;> simp at hp

theorem broader_mem_buildGraph_pre {rows : List Row} {scheme : String} {t : Triple}
    (h : t ∈ buildGraph rows scheme) (hp : t.p = Pred.broader) :
    t ∈ preGraph rows scheme := by
  rcases mem_buildGraph_iff.1 h with hpre | ⟨t', -, -, rfl⟩ | htop
  · exact hpre
  · simp at hp
  · rcases mem_topTriples_iff.1 htop with ⟨u, -, rfl⟩ | ⟨u, -, rfl⟩ <;> simp at hp

/-- A broader edge leaving a procedure concept always points at another
procedure concept: the routing in the source emits `skos:broader` from a
procedure child only when the resolved parent is a procedure too. -/
theorem broader_procs_closed {rows : List Row} {scheme : String} {a b : String}
    (h : (⟨.uri a, Pred.broader, .uri b⟩ : Triple) ∈ buildGraph rows scheme)
    (ha : a ∈ procedureUris rows) : b ∈ procedureUris rows := by
  obtain ⟨r, hr, hu, lab, hlab, hmem⟩ := broader_mem_buildGraph_inv h rfl
  obtain ⟨b', hres, hne, hcase⟩ := mem_labelTriples_iff.1 hmem
  rcases hcase with ⟨hp1, hp2, heq⟩ | ⟨hp1, hp2, heq | heq⟩ | ⟨hp1, heq⟩
  · simp only [Triple.mk.injEq, Node.uri.injEq, and_true, true_and] at heq
    obtain ⟨-, -, rfl⟩ := heq
    exact hp2
  · simp at heq
  · simp at heq
  · simp only [Triple.mk.injEq, Node.uri.injEq, and_true, true_and] at heq
    obtain ⟨rfl, -, -⟩ := heq
    exact absurd ha hp1

theorem narrower_to_broader {rows : List Row} {scheme : String} {x y : Node}
    (h : (⟨x, Pred.narrower, y⟩ : Triple) ∈ buildGraph rows scheme) :
    (⟨y, Pred.broader, x⟩ : Triple) ∈ buildGraph rows scheme := by
  rcases mem_buildGraph_iff.1 h with hpre | ⟨t', ht', hp, heq⟩ | htop
  · have := pred_of_mem_preGraph hpre
    simp at this
  · simp only [Triple.mk.injEq, and_true, true_and] at heq
    obtain ⟨rfl, rfl⟩ := heq
    have ht'' : (⟨t'.s, Pred.broader, t'.o⟩ : Triple) = t' := by
      obtain ⟨s, p, o⟩ := t'
      simp only at hp
      rw [hp]
    rw [ht'']
    exact preGraph_subset_buildGraph ht'
  · rcases mem_topTriples_iff.1 htop with ⟨u, -, heq⟩ | ⟨u, -, heq⟩ <;> simp at heq

theorem hasTopConcept_mem_iff {rows : List Row} {scheme : String} {x y : Node} :
    (⟨x, Pred.hasTopConcept, y⟩ : Triple) ∈ buildGraph rows scheme ↔
      (x = Node.uri scheme
       ∧ ∃ u ∈ topConceptUris rows (procedureUris rows), y = Node.uri u) := by
  constructor
  · intro h
    rcases mem_buildGraph_iff.1 h with hpre | ⟨t', -, -, heq⟩ | htop
    · have := pred_of_mem_preGraph hpre
      simp at this
    · simp at heq
    · rcases mem_topTriples_iff.1 htop with ⟨u, hu, heq⟩ | ⟨u, hu, heq⟩
      · simp only [Triple.mk.injEq, true_and, and_true] at heq
        obtain ⟨rfl, -, rfl⟩ := heq
        exact ⟨rfl, u, hu, rfl⟩
      · simp at heq
  · rintro ⟨rfl, u, hu, rfl⟩
    exact topTriples_subset_buildGraph (mem_topTriples_iff.2 (Or.inl ⟨u, hu, rfl⟩))

theorem topConceptOf_mem_iff {rows : List Row} {scheme : String} {x y : Node} :
    (⟨x, Pred.topConceptOf, y⟩ : Triple) ∈ buildGraph rows scheme ↔
      (y = Node.uri scheme
       ∧ ∃ u ∈ topConceptUris rows (procedureUris rows), x = Node.uri u) := by
  constructor
  · intro h
    rcases mem_buildGraph_iff.1 h with hpre | ⟨t', -, -, heq⟩ | htop
    · have := pred_of_mem_preGraph hpre
      simp at this
    · simp at heq
    · rcases mem_topTriples_iff.1 htop with ⟨u, hu, heq⟩ | ⟨u, hu, heq⟩
      · simp at heq
      · simp only [Triple.mk.injEq, true_and, and_true] at heq
        obtain ⟨rfl, -, rfl⟩ := heq
        exact ⟨rfl, u, hu, rfl⟩
  · rintro ⟨rfl, u, hu, rfl⟩
    exact topTriples_subset_buildGraph (mem_topTriples_iff.2 (Or.inr ⟨u, hu, rfl⟩))

theorem definition_mem_iff {rows : List Row} {scheme : String} {t : Triple}
    (hp : t.p = Pred.definition) :
    t ∈ buildGraph rows scheme ↔
      ∃ r ∈ rows, t ∈ conceptTriples (procedureUris rows) scheme r := by
  constructor
  · intro h
    rcases mem_buildGraph_iff.1 h with hpre | ⟨t', -, -, rfl⟩ | htop
    · rcases mem_preGraph_iff.1 hpre with hb | hc | hb2
      · rw [mem_baseTriples] at hb
        subst hb
        simp at hp
      · exact mem_conceptPart.1 hc
      · exfalso
        obtain ⟨r, -, ht⟩ := mem_broaderPart.1 hb2
        obtain ⟨-, lab, -, hmem⟩ := mem_broaderTriplesRow.1 ht
        rcases pred_of_mem_labelTriples hmem with h1 | h1 | h1 <;>
          rw [hp] at h1 <;> simp at h1
    · simp at hp
    · rcases mem_topTriples_iff.1 htop with ⟨u, -, rfl⟩ | ⟨u, -, rfl⟩ <;> simp at hp
  · rintro ⟨r, hr, ht⟩
    exact conceptTriples_subset_buildGraph hr ht

/-! ### Helper lemmas: permutation invariance of the build -/

theorem procedureUris_perm {rows rows' : List Row} (h : rows.Perm rows') :
    procedureUris rows = procedureUris rows' :=
  toFinset_eq_of_perm (h.filterMap _)

theorem matchingUris_perm {rows rows' : List Row} (h : rows.Perm rows')
    (lab : String) : (matchingUris rows lab).Perm (matchingUris rows' lab) :=
  h.filterMap _

theorem resolveLabel_perm {rows rows' : List Row} (h : rows.Perm rows')
    (lab : String) : resolveLabel rows lab = resolveLabel rows' lab := by
  cases hr : resolveLabel rows lab with
  | none =>
    symm
    rw [resolveLabel_eq_none_iff] at hr ⊢
    have := matchingUris_perm h lab
    rw [hr] at this
    exact this.symm.eq_nil
  | some m =>
    symm
    rw [resolveLabel_eq_some_iff] at hr ⊢
    obtain ⟨hm, hmin⟩ := hr
    exact ⟨(matchingUris_perm h lab).mem_iff.1 hm,
      fun x hx => hmin x ((matchingUris_perm h lab).mem_iff.2 hx)⟩

theorem labelTriples_perm {rows rows' : List Row} (h : rows.Perm rows')
    (uri lab : String) :
    labelTriples rows (procedureUris rows) uri lab
      = labelTriples rows' (procedureUris rows') uri lab := by
  unfold labelTriples
  rw [resolveLabel_perm h, procedureUris_perm h]

theorem broaderTriplesRow_perm {rows rows' : List Row} (h : rows.Perm rows')
    (r : Row) :
    broaderTriplesRow rows (procedureUris rows) r
      = broaderTriplesRow rows' (procedureUris rows') r := by
  unfold broaderTriplesRow
  have hfun : labelTriples rows (procedureUris rows) (rowUri r)
      = labelTriples rows' (procedureUris rows') (rowUri r) :=
    funext (fun lab => labelTriples_perm h (rowUri r) lab)
  rw [hfun]

theorem conceptPart_perm {rows rows' : List Row} (h : rows.Perm rows')
    (scheme : String) : conceptPart rows scheme = conceptPart rows' scheme := by
  unfold conceptPart
  rw [procedureUris_perm h]
  exact listUnion_perm (h.map _)

theorem broaderPart_perm {rows rows' : List Row} (h : rows.Perm rows') :
    broaderPart rows = broaderPart rows' := by
  unfold broaderPart
  have hfun : broaderTriplesRow rows (procedureUris rows)
      = broaderTriplesRow rows' (procedureUris rows') :=
    funext (broaderTriplesRow_perm h)
  rw [hfun]
  exact listUnion_perm (h.map _)

theorem topConceptUris_perm {rows rows' : List Row} (h : rows.Perm rows') :
    topConceptUris rows (procedureUris rows)
      = topConceptUris rows' (procedureUris rows') := by
  unfold topConceptUris
  rw [procedureUris_perm h]
  exact toFinset_eq_of_perm (h.filterMap _)

theorem buildGraph_perm {rows rows' : List Row} (h : rows.Perm rows')
    (scheme : String) : buildGraph rows scheme = buildGraph rows' scheme := by
  unfold buildGraph preGraph
  rw [conceptPart_perm h, broaderPart_perm h, topConceptUris_perm h]

/-! ### Helper lemmas: the top-concept inverse closure is a no-op on the
restored graph -/

theorem closeTopconceptInverses_buildGraph (rows : List Row) (scheme : String) :
    closeTopconceptInverses (buildGraph rows scheme) scheme = buildGraph rows scheme := by
  have sub1 : ((buildGraph rows scheme).filter
      (fun t => t.s = Node.uri scheme ∧ t.p = Pred.hasTopConcept)).image
      (fun t => (⟨t.o, Pred.topConceptOf, .uri scheme⟩ : Triple))
      ⊆ buildGraph rows scheme := by
    intro t ht
    simp only [Finset.mem_image, Finset.mem_filter] at ht
    obtain ⟨t', ⟨ht', hs, hp⟩, rfl⟩ := ht
    obtain ⟨s, p, o⟩ := t'
    simp only at hs hp
    subst hs
    subst hp
    obtain ⟨-, u, hu, ho⟩ := hasTopConcept_mem_iff.1 ht'
    subst ho
    exact topConceptOf_mem_iff.2 ⟨rfl, u, hu, rfl⟩
  have h1 : buildGraph rows scheme ∪ ((buildGraph rows scheme).filter
      (fun t => t.s = Node.uri scheme ∧ t.p = Pred.hasTopConcept)).image
      (fun t => (⟨t.o, Pred.topConceptOf, .uri scheme⟩ : Triple))
      = buildGraph rows scheme := Finset.union_eq_left.2 sub1
  have sub2 : ((buildGraph rows scheme).filter
      (fun t => t.p = Pred.topConceptOf ∧ t.o = Node.uri scheme)).image
      (fun t => (⟨.uri scheme, Pred.hasTopConcept, t.s⟩ : Triple))
      ⊆ buildGraph rows scheme := by
    intro t ht
    simp only [Finset.mem_image, Finset.mem_filter] at ht
    obtain ⟨t', ⟨ht', hp, ho⟩, rfl⟩ := ht
    obtain ⟨s, p, o⟩ := t'
    simp only at hp ho
    subst hp
    subst ho
    obtain ⟨-, u, hu, hsu⟩ := topConceptOf_mem_iff.1 ht'
    subst hsu
    exact hasTopConcept_mem_iff.2 ⟨rfl, u, hu, rfl⟩
  simp only [closeTopconceptInverses]
  rw [h1]
  exact Finset.union_eq_left.2 sub2

/-! ### The claims -/

/-- Claim C2: a row (with a unique, non-empty identifier) is classified as
a procedure if and only if at least one of its semicolon-separated
`exactMatch` values begins with one of the recognized procedure-namespace
prefixes; a row with zero `exactMatch` values is never classified as a
procedure.  (`procedureUris` is computed from the row set alone, before
any broader reference is resolved: its definition consults no resolver.) -/
theorem c2_procedure_classification (rows : List Row) (r : Row)
    (hr : r ∈ rows)
    (huniq : ∀ r' ∈ rows, rowUri r' = rowUri r → r' = r)
    (hid : rowUri r ≠ "") :
    (rowUri r ∈ procedureUris rows ↔
      ∃ u ∈ split_semicolon r.exactMatch,
        ∃ pre ∈ procedureExactmatchNamespaces, pyStartswith u pre = true)
    ∧ (split_semicolon r.exactMatch = [] → rowUri r ∉ procedureUris rows) := by
  have hiff : isProcedureRow r = true ↔
      ∃ u ∈ split_semicolon r.exactMatch,
        ∃ pre ∈ procedureExactmatchNamespaces, pyStartswith u pre = true := by
    simp [isProcedureRow, List.any_eq_true]
  have hmain : rowUri r ∈ procedureUris rows ↔
      ∃ u ∈ split_semicolon r.exactMatch,
        ∃ pre ∈ procedureExactmatchNamespaces, pyStartswith u pre = true := by
    constructor
    · intro hmem
      obtain ⟨r', hr', -, hproc', heq'⟩ := mem_procedureUris.1 hmem
      have hrr : r' = r := huniq r' hr' heq'
      subst hrr
      exact hiff.1 hproc'
    · intro hex
      exact mem_procedureUris.2 ⟨r, hr, hid, hiff.2 hex, rfl⟩
  refine ⟨hmain, ?_⟩
  intro hempty hmem
  obtain ⟨u, hu, -⟩ := hmain.1 hmem
  rw [hempty] at hu
  simp at hu

/-- Witness for C2 at the two-row example: the procedure row is classified
as a procedure exactly because of its GLOSIS `exactMatch` value. -/
theorem c2_witness :
    rowProc ∈ [rowSoil, rowProc]
    ∧ (∀ r' ∈ [rowSoil, rowProc], rowUri r' = rowUri rowProc → r' = rowProc)
    ∧ rowUri rowProc ≠ ""
    ∧ ((rowUri rowProc ∈ procedureUris [rowSoil, rowProc] ↔
        ∃ u ∈ split_semicolon rowProc.exactMatch,
          ∃ pre ∈ procedureExactmatchNamespaces, pyStartswith u pre = true)
       ∧ (split_semicolon rowProc.exactMatch = [] →
          rowUri rowProc ∉ procedureUris [rowSoil, rowProc])) :=
  ⟨by decide, by decide, by decide,
   c2_procedure_classification [rowSoil, rowProc] rowProc (by decide) (by decide) (by decide)⟩

/-- Claim C3: broader labels with more than one case-insensitive
`prefLabel` match resolve to the lexicographically smallest of the
matching row identifiers, and exactly one entry is appended to the
ambiguous-labels report; resolution is case-insensitive in the label
(and works only through the prefLabel index `matchingUris`, never
through identifiers). -/
theorem c3_ambiguous_resolution (rows : List Row) (lab : String) (w : Warnings)
    (h : 1 < (matchingUris rows lab).length) :
    ∃ m, resolve_pref_to_uri rows lab w =
        (some m,
         { w with ambiguous :=
            w.ambiguous ++ [ambiguousLine lab (matchingUris rows lab).length] })
      ∧ m ∈ matchingUris rows lab
      ∧ (∀ x ∈ matchingUris rows lab, strLe m x = true)
      ∧ (∀ lab', pyCasefold lab' = pyCasefold lab →
          matchingUris rows lab' = matchingUris rows lab) := by
  have hcase : ∀ lab', pyCasefold lab' = pyCasefold lab →
      matchingUris rows lab' = matchingUris rows lab := by
    intro lab' hcf
    unfold matchingUris
    simp only [hcf]
  cases hm : matchingUris rows lab with
  | nil => rw [hm] at h; simp at h
  | cons u rest =>
    cases rest with
    | nil => rw [hm] at h; simp at h
    | cons v rest2 =>
      obtain ⟨m, hhead, hmem, hmin⟩ := mergeSort_head_min (u :: v :: rest2) (by simp)
      rw [hm] at hcase
      refine ⟨m, ?_, hmem, hmin, hcase⟩
      unfold resolve_pref_to_uri
      rw [hm]
      simp [hhead]

/-- Witness for C3: two rows share the prefLabel `Soil`; the reference
resolves to the smaller identifier `urn:ex:b` and one ambiguity line is
accumulated. -/
theorem c3_witness :
    1 < (matchingUris [rowSoilB, rowSoil] "soil").length
    ∧ ∃ m, resolve_pref_to_uri [rowSoilB, rowSoil] "soil" ⟨[], []⟩ =
        (some m,
         { unresolved := [],
           ambiguous :=
            [] ++ [ambiguousLine "soil" (matchingUris [rowSoilB, rowSoil] "soil").length] })
      ∧ m ∈ matchingUris [rowSoilB, rowSoil] "soil"
      ∧ (∀ x ∈ matchingUris [rowSoilB, rowSoil] "soil", strLe m x = true)
      ∧ (∀ lab', pyCasefold lab' = pyCasefold "soil" →
          matchingUris [rowSoilB, rowSoil] lab' = matchingUris [rowSoilB, rowSoil] "soil") :=
  ⟨by decide, c3_ambiguous_resolution [rowSoilB, rowSoil] "soil" ⟨[], []⟩ (by decide)⟩

/-- Claim C4: a broader label with zero case-insensitive prefLabel matches
resolves to nothing — the resolver returns `none` and appends exactly one
line containing that label to the unresolved-labels report (one line per
occurrence, no deduplication: the line is appended whatever the current
report holds) — and no edge of any kind is emitted for that reference
(its per-label triple contribution is empty, for every procedure set and
every child URI). -/
theorem c4_unresolved_reference (rows : List Row) (lab : String) (w : Warnings)
    (h : matchingUris rows lab = []) :
    resolve_pref_to_uri rows lab w =
      (none, { w with unresolved := w.unresolved ++ [unresolvedLine lab] })
    ∧ unresolvedLine lab = "- " ++ lab
    ∧ ∀ (procs : Finset String) (uri : String),
        labelTriples rows procs uri lab = ∅ := by
  refine ⟨resolve_unresolved w h, rfl, ?_⟩
  intro procs uri
  unfold labelTriples
  rw [resolveLabel_eq_none_iff.2 h]

/-- Witness for C4: the label `Nonexistent Term` resolves to nothing in
the one-row example; one unresolved line is accumulated and the label
contributes no triples. -/
theorem c4_witness :
    matchingUris [rowSoil] "Nonexistent Term" = []
    ∧ resolve_pref_to_uri [rowSoil] "Nonexistent Term" ⟨["- old"], []⟩ =
        (none, { unresolved := ["- old"] ++ [unresolvedLine "Nonexistent Term"],
                 ambiguous := [] })
    ∧ unresolvedLine "Nonexistent Term" = "- " ++ "Nonexistent Term"
    ∧ ∀ (procs : Finset String) (uri : String),
        labelTriples [rowSoil] procs uri "Nonexistent Term" = ∅ :=
  ⟨by decide,
   c4_unresolved_reference [rowSoil] "Nonexistent Term" ⟨["- old"], []⟩ (by decide)⟩

/-- Claim C1: for a row whose broader cell contains a label resolving to
some parent — if the child is a procedure and the parent is not, the
graph holds the `isProcedureOf`/`hasProcedure` pair and holds neither the
`broader` nor the `narrower` edge between them; if child and parent are
both procedures, the ordinary `broader` edge is emitted instead; and a
non-procedure child always gets the ordinary `broader` edge, whatever the
parent's classification. -/
theorem c1_procedure_edge_routing (rows : List Row) (scheme : String) (r : Row)
    (parent lab : String)
    (hr : r ∈ rows) (hne : rowUri r ≠ "")
    (hlab : lab ∈ split_semicolon r.broader)
    (hres : resolveLabel rows lab = some parent) :
    ((rowUri r ∈ procedureUris rows ∧ parent ∉ procedureUris rows) →
      ((⟨.uri (rowUri r), Pred.isProcedureOf, .uri parent⟩ : Triple) ∈ buildGraph rows scheme
       ∧ (⟨.uri parent, Pred.hasProcedure, .uri (rowUri r)⟩ : Triple) ∈ buildGraph rows scheme
       ∧ (⟨.uri (rowUri r), Pred.broader, .uri parent⟩ : Triple) ∉ buildGraph rows scheme
       ∧ (⟨.uri parent, Pred.narrower, .uri (rowUri r)⟩ : Triple) ∉ buildGraph rows scheme))
    ∧ ((rowUri r ∈ procedureUris rows ∧ parent ∈ procedureUris rows) →
        (⟨.uri (rowUri r), Pred.broader, .uri parent⟩ : Triple) ∈ buildGraph rows scheme)
    ∧ (rowUri r ∉ procedureUris rows →
        (⟨.uri (rowUri r), Pred.broader, .uri parent⟩ : Triple) ∈ buildGraph rows scheme) := by
  have hpar : parent ≠ "" := resolveLabel_some_ne_empty hres
  refine ⟨?_, ?_, ?_⟩
  · rintro ⟨hcp, hpp⟩
    have hmem1 : (⟨.uri (rowUri r), Pred.isProcedureOf, .uri parent⟩ : Triple)
        ∈ labelTriples rows (procedureUris rows) (rowUri r) lab := by
      unfold labelTriples
      rw [hres]
      simp [hpar, hcp, hpp]
    have hmem2 : (⟨.uri parent, Pred.hasProcedure, .uri (rowUri r)⟩ : Triple)
        ∈ labelTriples rows (procedureUris rows) (rowUri r) lab := by
      unfold labelTriples
      rw [hres]
      simp [hpar, hcp, hpp]
    refine ⟨labelTriples_subset_buildGraph hr hne hlab hmem1,
      labelTriples_subset_buildGraph hr hne hlab hmem2, ?_, ?_⟩
    · intro hbr
      exact hpp (broader_procs_closed hbr hcp)
    · intro hnw
      exact hpp (broader_procs_closed (narrower_to_broader hnw) hcp)
  · rintro ⟨hcp, hpp⟩
    apply labelTriples_subset_buildGraph hr hne hlab
    unfold labelTriples
    rw [hres]
    simp [hpar, hcp, hpp]
  · intro hcp
    apply labelTriples_subset_buildGraph hr hne hlab
    unfold labelTriples
    rw [hres]
    simp [hpar, hcp]

/-- Witness for C1 at the two-row example: the procedure row whose
broader label `Soil` resolves to the non-procedure soil row. -/
theorem c1_witness :
    rowProc ∈ [rowSoil, rowProc]
    ∧ rowUri rowProc ≠ ""
    ∧ "Soil" ∈ split_semicolon rowProc.broader
    ∧ resolveLabel [rowSoil, rowProc] "Soil" = some "urn:ex:soil"
    ∧ (((rowUri rowProc ∈ procedureUris [rowSoil, rowProc]
         ∧ "urn:ex:soil" ∉ procedureUris [rowSoil, rowProc]) →
        ((⟨.uri (rowUri rowProc), Pred.isProcedureOf, .uri "urn:ex:soil"⟩ : Triple)
            ∈ buildGraph [rowSoil, rowProc] "urn:ex:scheme"
         ∧ (⟨.uri "urn:ex:soil", Pred.hasProcedure, .uri (rowUri rowProc)⟩ : Triple)
            ∈ buildGraph [rowSoil, rowProc] "urn:ex:scheme"
         ∧ (⟨.uri (rowUri rowProc), Pred.broader, .uri "urn:ex:soil"⟩ : Triple)
            ∉ buildGraph [rowSoil, rowProc] "urn:ex:scheme"
         ∧ (⟨.uri "urn:ex:soil", Pred.narrower, .uri (rowUri rowProc)⟩ : Triple)
            ∉ buildGraph [rowSoil, rowProc] "urn:ex:scheme"))
       ∧ ((rowUri rowProc ∈ procedureUris [rowSoil, rowProc]
           ∧ "urn:ex:soil" ∈ procedureUris [rowSoil, rowProc]) →
          (⟨.uri (rowUri rowProc), Pred.broader, .uri "urn:ex:soil"⟩ : Triple)
            ∈ buildGraph [rowSoil, rowProc] "urn:ex:scheme")
       ∧ (rowUri rowProc ∉ procedureUris [rowSoil, rowProc] →
          (⟨.uri (rowUri rowProc), Pred.broader, .uri "urn:ex:soil"⟩ : Triple)
            ∈ buildGraph [rowSoil, rowProc] "urn:ex:scheme")) :=
  ⟨by decide, by decide, by decide, by decide,
   c1_procedure_edge_routing [rowSoil, rowProc] "urn:ex:scheme" rowProc
     "urn:ex:soil" "Soil" (by decide) (by decide) (by decide) (by decide)⟩

/-- Claim C5: for every `broader` triple in the built graph the inverse
`narrower` triple is also present (the converse direction is not claimed:
`broader` is primary and `narrower` is derived from it). -/
theorem c5_narrower_inverse (rows : List Row) (scheme : String) (t : Triple)
    (ht : t ∈ buildGraph rows scheme) (hp : t.p = Pred.broader) :
    (⟨t.o, Pred.narrower, t.s⟩ : Triple) ∈ buildGraph rows scheme := by
  have hpre := broader_mem_buildGraph_pre ht hp
  exact mem_buildGraph_iff.2 (Or.inr (Or.inl ⟨t, hpre, hp, rfl⟩))

/-- Witness for C5: the clay→soil broader edge of the two-row example has
its soil→clay narrower inverse. -/
theorem c5_witness :
    (⟨.uri "urn:ex:clay", Pred.broader, .uri "urn:ex:soil"⟩ : Triple)
      ∈ buildGraph [rowSoil, rowClay] "urn:ex:scheme"
    ∧ (⟨.uri "urn:ex:clay", Pred.broader, .uri "urn:ex:soil"⟩ : Triple).p = Pred.broader
    ∧ (⟨.uri "urn:ex:soil", Pred.narrower, .uri "urn:ex:clay"⟩ : Triple)
      ∈ buildGraph [rowSoil, rowClay] "urn:ex:scheme" :=
  ⟨by decide, by decide,
   c5_narrower_inverse [rowSoil, rowClay] "urn:ex:scheme"
     ⟨.uri "urn:ex:clay", Pred.broader, .uri "urn:ex:soil"⟩ (by decide) (by decide)⟩

/-- Claim C6: a concept carries the top-concept pair if and only if some
source row with its identifier is not classified as a procedure and has
an empty (after stripping) broader cell; and the two triples of the pair
are always present together or absent together. -/
theorem c6_top_concepts (rows : List Row) (scheme : String) (u : String) :
    ((⟨.uri scheme, Pred.hasTopConcept, .uri u⟩ : Triple) ∈ buildGraph rows scheme ↔
      ∃ r ∈ rows, rowUri r = u ∧ u ≠ "" ∧ u ∉ procedureUris rows
        ∧ pyStrip r.broader = "")
    ∧ ((⟨.uri scheme, Pred.hasTopConcept, .uri u⟩ : Triple) ∈ buildGraph rows scheme ↔
        (⟨.uri u, Pred.topConceptOf, .uri scheme⟩ : Triple) ∈ buildGraph rows scheme) := by
  have htc : (⟨.uri scheme, Pred.hasTopConcept, .uri u⟩ : Triple) ∈ buildGraph rows scheme
      ↔ u ∈ topConceptUris rows (procedureUris rows) := by
    rw [hasTopConcept_mem_iff]
    simp [Node.uri.injEq, eq_comm]
  have hto : (⟨.uri u, Pred.topConceptOf, .uri scheme⟩ : Triple) ∈ buildGraph rows scheme
      ↔ u ∈ topConceptUris rows (procedureUris rows) := by
    rw [topConceptOf_mem_iff]
    simp [Node.uri.injEq, eq_comm]
  refine ⟨?_, htc.trans hto.symm⟩
  rw [htc, mem_topConceptUris]
  constructor
  · rintro ⟨r, hr, hne, hnp, hbr, rfl⟩
    exact ⟨r, hr, rfl, hne, hnp, hbr⟩
  · rintro ⟨r, hr, rfl, hne, hnp, hbr⟩
    exact ⟨r, hr, hne, hnp, hbr, rfl⟩

/-- Claim C7: the triple set the builder produces depends only on the
multiset of input rows: permuting the rows yields exactly the same triple
set (the warning reports may accumulate in a different order, and are not
part of this statement); in particular two runs on identical rows yield
identical triple sets, since the builder is a function of the row list. -/
theorem c7_order_independence (rows rows' : List Row) (scheme : String)
    (h : rows.Perm rows') :
    buildGraph rows scheme = buildGraph rows' scheme
    ∧ (build_graph_from_csv rows scheme).1 = (build_graph_from_csv rows' scheme).1 := by
  have hg := buildGraph_perm h scheme
  exact ⟨hg, hg⟩

/-- Witness for C7: swapping the two rows of the example leaves the built
triple set unchanged. -/
theorem c7_witness :
    ([rowSoil, rowClay] : List Row).Perm [rowClay, rowSoil]
    ∧ buildGraph [rowSoil, rowClay] "urn:ex:scheme"
        = buildGraph [rowClay, rowSoil] "urn:ex:scheme"
    ∧ (build_graph_from_csv [rowSoil, rowClay] "urn:ex:scheme").1
        = (build_graph_from_csv [rowClay, rowSoil] "urn:ex:scheme").1 :=
  ⟨by decide,
   (c7_order_independence [rowSoil, rowClay] [rowClay, rowSoil] "urn:ex:scheme"
     (by decide)).1,
   (c7_order_independence [rowSoil, rowClay] [rowClay, rowSoil] "urn:ex:scheme"
     (by decide)).2⟩

/-- Claim C8: the verification phase never alters the restored graph's
triple set: whatever the comparison flags, after predicate filtering,
top-concept inverse closure (which, through the aliasing of
`_graph_without_predicates`, is applied to the restored graph itself when
no predicate is ignored) and diffing, the in-memory restored graph still
equals the triple set that `build_graph_from_csv` produced — the set that
was serialized to the output file before the comparison began. -/
theorem c8_verification_diagnostic (rows : List Row) (existing : Finset Triple)
    (scheme : String)
    (includeRelated includeTopconceptof includeEquivalentto : Bool) :
    (verifyPhase (buildGraph rows scheme) existing scheme
      includeRelated includeTopconceptof includeEquivalentto).1
      = buildGraph rows scheme := by
  simp only [verifyPhase]
  split_ifs <;>
    first
      | exact closeTopconceptInverses_buildGraph rows scheme
      | rfl

/-- Claim C9: a non-empty definition cell is emitted with language tag
`en` exactly when the row is not classified as a procedure — a
procedure's definition is a plain untagged literal — while prefLabel and
altLabel literals always carry `en` regardless of classification. -/
theorem c9_definition_language_tag (rows : List Row) (scheme : String) (r : Row)
    (hr : r ∈ rows)
    (huniq : ∀ r' ∈ rows, rowUri r' = rowUri r → r' = r)
    (hid : rowUri r ≠ "") (hdef : pyStrip r.definition ≠ "") :
    ((rowUri r ∈ procedureUris rows →
      ((⟨.uri (rowUri r), Pred.definition, .lit (pyStrip r.definition) none⟩ : Triple)
          ∈ buildGraph rows scheme
       ∧ (⟨.uri (rowUri r), Pred.definition,
            .lit (pyStrip r.definition) (some "en")⟩ : Triple)
          ∉ buildGraph rows scheme))
     ∧ (rowUri r ∉ procedureUris rows →
      ((⟨.uri (rowUri r), Pred.definition,
          .lit (pyStrip r.definition) (some "en")⟩ : Triple)
          ∈ buildGraph rows scheme
       ∧ (⟨.uri (rowUri r), Pred.definition, .lit (pyStrip r.definition) none⟩ : Triple)
          ∉ buildGraph rows scheme))
     ∧ (pyStrip r.prefLabel ≠ "" →
        (⟨.uri (rowUri r), Pred.prefLabel,
          .lit (pyStrip r.prefLabel) (some "en")⟩ : Triple) ∈ buildGraph rows scheme)
     ∧ (∀ a ∈ split_semicolon r.altLabel,
        (⟨.uri (rowUri r), Pred.altLabel, .lit a (some "en")⟩ : Triple)
          ∈ buildGraph rows scheme)) := by
  refine ⟨?_, ?_, ?_, ?_⟩
  · intro hproc
    constructor
    · apply conceptTriples_subset_buildGraph hr
      rw [mem_conceptTriples_iff]
      refine ⟨hid, Or.inr (Or.inr (Or.inr (Or.inr (Or.inl ⟨hdef, ?_⟩))))⟩
      simp [hproc]
    · intro habs
      obtain ⟨r', hr', ht⟩ := (definition_mem_iff rfl).1 habs
      obtain ⟨hne', hcase⟩ := mem_conceptTriples_iff.1 ht
      rcases hcase with heq | heq | ⟨-, heq⟩ | ⟨a, -, heq⟩ | ⟨-, heq⟩ | ⟨u2, -, heq⟩ | ⟨u2, -, heq⟩ <;>
        [skip; simp at heq; simp at heq; simp at heq; skip; simp at heq; simp at heq]
      · simp at heq
      · have hu : rowUri r = rowUri r' := by
          have hs := congrArg Triple.s heq
          simpa using hs
        have hrr : r' = r := huniq r' hr' hu.symm
        subst hrr
        have htag := congrArg Triple.o heq
        rw [if_pos hproc] at htag
        simp at htag
  · intro hproc
    constructor
    · apply conceptTriples_subset_buildGraph hr
      rw [mem_conceptTriples_iff]
      refine ⟨hid, Or.inr (Or.inr (Or.inr (Or.inr (Or.inl ⟨hdef, ?_⟩))))⟩
      simp [hproc]
    · intro habs
      obtain ⟨r', hr', ht⟩ := (definition_mem_iff rfl).1 habs
      obtain ⟨hne', hcase⟩ := mem_conceptTriples_iff.1 ht
      rcases hcase with heq | heq | ⟨-, heq⟩ | ⟨a, -, heq⟩ | ⟨-, heq⟩ | ⟨u2, -, heq⟩ | ⟨u2, -, heq⟩ <;>
        [skip; simp at heq; simp at heq; simp at heq; skip; simp at heq; simp at heq]
      · simp at heq
      · have hu : rowUri r = rowUri r' := by
          have hs := congrArg Triple.s heq
          simpa using hs
        have hrr : r' = r := huniq r' hr' hu.symm
        subst hrr
        have htag := congrArg Triple.o heq
        rw [if_neg hproc] at htag
        simp at htag
  · intro hpref
    apply conceptTriples_subset_buildGraph hr
    rw [mem_conceptTriples_iff]
    exact ⟨hid, Or.inr (Or.inr (Or.inl ⟨hpref, rfl⟩))⟩
  · intro a ha
    apply conceptTriples_subset_buildGraph hr
    rw [mem_conceptTriples_iff]
    exact ⟨hid, Or.inr (Or.inr (Or.inr (Or.inl ⟨a, ha, rfl⟩)))⟩

/-- Witness for C9 at the two-row example, instantiated at the procedure
row (whose definition is untagged) — the theorem's other branches cover
the non-procedure case. -/
theorem c9_witness :
    rowProc ∈ [rowSoil, rowProc]
    ∧ (∀ r' ∈ [rowSoil, rowProc], rowUri r' = rowUri rowProc → r' = rowProc)
    ∧ rowUri rowProc ≠ ""
    ∧ pyStrip rowProc.definition ≠ ""
    ∧ ((rowUri rowProc ∈ procedureUris [rowSoil, rowProc] →
        ((⟨.uri (rowUri rowProc), Pred.definition,
            .lit (pyStrip rowProc.definition) none⟩ : Triple)
            ∈ buildGraph [rowSoil, rowProc] "urn:ex:scheme"
         ∧ (⟨.uri (rowUri rowProc), Pred.definition,
              .lit (pyStrip rowProc.definition) (some "en")⟩ : Triple)
            ∉ buildGraph [rowSoil, rowProc] "urn:ex:scheme"))
       ∧ (rowUri rowProc ∉ procedureUris [rowSoil, rowProc] →
          ((⟨.uri (rowUri rowProc), Pred.definition,
              .lit (pyStrip rowProc.definition) (some "en")⟩ : Triple)
              ∈ buildGraph [rowSoil, rowProc] "urn:ex:scheme"
           ∧ (⟨.uri (rowUri rowProc), Pred.definition,
                .lit (pyStrip rowProc.definition) none⟩ : Triple)
              ∉ buildGraph [rowSoil, rowProc] "urn:ex:scheme"))
       ∧ (pyStrip rowProc.prefLabel ≠ "" →
          (⟨.uri (rowUri rowProc), Pred.prefLabel,
            .lit (pyStrip rowProc.prefLabel) (some "en")⟩ : Triple)
            ∈ buildGraph [rowSoil, rowProc] "urn:ex:scheme")
       ∧ (∀ a ∈ split_semicolon rowProc.altLabel,
          (⟨.uri (rowUri rowProc), Pred.altLabel, .lit a (some "en")⟩ : Triple)
            ∈ buildGraph [rowSoil, rowProc] "urn:ex:scheme")) :=
  ⟨by decide, by decide, by decide, by decide,
   c9_definition_language_tag [rowSoil, rowProc] "urn:ex:scheme" rowProc
     (by decide) (by decide) (by decide) (by decide)⟩

/-- Claim C10: a multi-valued cell whose stripped content is `nan` in any
letter case yields zero values, hence zero triples (here for the broader
cell: its per-row contribution is empty); yet a non-procedure row whose
broader cell is exactly `nan` is still NOT a top concept, because
top-concept detection tests only emptiness of the raw stripped cell. -/
theorem c10_nan_cells (rows : List Row) (scheme : String) (r : Row) (v : String)
    (hr : r ∈ rows)
    (huniq : ∀ r' ∈ rows, rowUri r' = rowUri r → r' = r)
    (hid : rowUri r ≠ "")
    (hnanv : pyLower (pyStrip v) = "nan")
    (hnan : pyLower (pyStrip r.broader) = "nan")
    (hproc : rowUri r ∉ procedureUris rows) :
    split_semicolon v = []
    ∧ split_semicolon r.broader = []
    ∧ broaderTriplesRow rows (procedureUris rows) r = ∅
    ∧ (⟨.uri scheme, Pred.hasTopConcept, .uri (rowUri r)⟩ : Triple)
        ∉ buildGraph rows scheme
    ∧ (⟨.uri (rowUri r), Pred.topConceptOf, .uri scheme⟩ : Triple)
        ∉ buildGraph rows scheme := by
  have hsplit : ∀ s : String, pyLower (pyStrip s) = "nan" → split_semicolon s = [] := by
    intro s hs
    simp [split_semicolon, hs]
  have hnotop : rowUri r ∉ topConceptUris rows (procedureUris rows) := by
    intro hmem
    obtain ⟨r', hr', hne', hnp', hbr', heq'⟩ := mem_topConceptUris.1 hmem
    have hrr : r' = r := huniq r' hr' heq'
    subst hrr
    rw [hbr'] at hnan
    exact absurd hnan (by decide)
  refine ⟨hsplit v hnanv, hsplit r.broader hnan, ?_, ?_, ?_⟩
  · simp [broaderTriplesRow, hsplit r.broader hnan, listUnion]
  · intro habs
    obtain ⟨-, u2, hu2, hueq⟩ := hasTopConcept_mem_iff.1 habs
    rw [Node.uri.injEq] at hueq
    rw [← hueq] at hu2
    exact hnotop hu2
  · intro habs
    obtain ⟨-, u2, hu2, hueq⟩ := topConceptOf_mem_iff.1 habs
    rw [Node.uri.injEq] at hueq
    rw [← hueq] at hu2
    exact hnotop hu2

/-- Witness for C10: the `nan`-broader row of the two-row example emits no
broader values and is not a top concept. -/
theorem c10_witness :
    rowNan ∈ [rowSoil, rowNan]
    ∧ (∀ r' ∈ [rowSoil, rowNan], rowUri r' = rowUri rowNan → r' = rowNan)
    ∧ rowUri rowNan ≠ ""
    ∧ pyLower (pyStrip "NaN") = "nan"
    ∧ pyLower (pyStrip rowNan.broader) = "nan"
    ∧ rowUri rowNan ∉ procedureUris [rowSoil, rowNan]
    ∧ (split_semicolon "NaN" = []
       ∧ split_semicolon rowNan.broader = []
       ∧ broaderTriplesRow [rowSoil, rowNan] (procedureUris [rowSoil, rowNan]) rowNan = ∅
       ∧ (⟨.uri "urn:ex:scheme", Pred.hasTopConcept, .uri (rowUri rowNan)⟩ : Triple)
          ∉ buildGraph [rowSoil, rowNan] "urn:ex:scheme"
       ∧ (⟨.uri (rowUri rowNan), Pred.topConceptOf, .uri "urn:ex:scheme"⟩ : Triple)
          ∉ buildGraph [rowSoil, rowNan] "urn:ex:scheme") :=
  ⟨by decide, by decide, by decide, by decide, by decide, by decide,
   c10_nan_cells [rowSoil, rowNan] "urn:ex:scheme" rowNan "NaN"
     (by decide) (by decide) (by decide) (by decide) (by decide) (by decide)⟩

end SoilVoc
